import Mathlib

/-!
Verification development for the network-topology-identification analytics
pipeline (similarity computation, topology inference via hierarchical
clustering, per-slot anomaly detection, and congestion-propagation analysis).

The definitions below are shallow embeddings of the Python sources:
  * backend/app/services/similarity_service.py   (_compute_correlation)
  * backend/app/services/topology_service.py     (_hierarchical_clustering,
                                                  _build_groups, _build_assignments)
  * backend/app/services/anomaly_service.py      (detect_anomalies)
  * backend/app/services/propagation_service.py  (_build_propagation_paths,
                                                  _build_network_graph)
  * ML/step2_detect_anomalies.py                 (anomaly flag and confidence)
  * ML/step3_propagation_analysis.py             (adaptive distance threshold)

Numeric modelling conventions: machine floats are modelled as exact rationals
(ℚ) wherever the computation is rational, and as real numbers (ℝ) where a
square root appears (Pearson correlation denominators, numpy standard
deviation).  numpy/python rounding (`np.round`, `round`) is round-half-to-even,
modelled exactly by `roundHE` below.  Randomness (`np.random.*`) is modelled by
passing the drawn values as explicit function arguments.
-/

/-! ### Round-half-to-even (numpy `np.round` / python `round`) -/

/-- Round to the nearest integer, ties to the even integer.  This is the exact
rounding rule used by numpy `np.round` and python builtin `round`. -/
def roundHE {α : Type} [LinearOrderedField α] [FloorRing α] (q : α) : ℤ :=
  if q - ⌊q⌋ < 1/2 then ⌊q⌋
  else if 1/2 < q - ⌊q⌋ then ⌊q⌋ + 1
  else if ⌊q⌋ % 2 = 0 then ⌊q⌋ else ⌊q⌋ + 1

/-- `np.round(q, d)` / `round(q, d)`: round to `d` decimal digits,
ties to even. -/
def np_round {α : Type} [LinearOrderedField α] [FloorRing α] (d : ℕ) (q : α) : α :=
  (roundHE (q * 10 ^ d) : α) / 10 ^ d

theorem roundHE_intCast {α : Type} [LinearOrderedField α] [FloorRing α] (k : ℤ) :
    roundHE (k : α) = k := by
  unfold roundHE
  have hf : ⌊(k : α)⌋ = k := Int.floor_intCast k
  simp only [hf, sub_self]
  norm_num

theorem floor_le_roundHE {α : Type} [LinearOrderedField α] [FloorRing α] (q : α) :
    ⌊q⌋ ≤ roundHE q := by
  unfold roundHE; split_ifs <;> omega

theorem roundHE_le_floor_add_one {α : Type} [LinearOrderedField α] [FloorRing α] (q : α) :
    roundHE q ≤ ⌊q⌋ + 1 := by
  unfold roundHE; split_ifs <;> omega

theorem roundHE_le_roundHE {α : Type} [LinearOrderedField α] [FloorRing α]
    {a b : α} (hab : a ≤ b) : roundHE a ≤ roundHE b := by
  have hfl : ⌊a⌋ ≤ ⌊b⌋ := Int.floor_le_floor hab
  rcases lt_or_eq_of_le hfl with hlt | heq
  · -- different floors: roundHE a ≤ ⌊a⌋ + 1 ≤ ⌊b⌋ ≤ roundHE b
    have h1 := roundHE_le_floor_add_one a
    have h2 := floor_le_roundHE b
    omega
  · -- same floor: compare fractional parts
    unfold roundHE
    rw [← heq]
    have hfr : a - (⌊a⌋ : α) ≤ b - (⌊a⌋ : α) := by linarith
    split_ifs <;> first | omega | (exfalso; linarith)

theorem np_round_le_np_round {α : Type} [LinearOrderedField α] [FloorRing α]
    (d : ℕ) {a b : α} (hab : a ≤ b) : np_round d a ≤ np_round d b := by
  unfold np_round
  have hp : (0:α) < 10 ^ d := by positivity
  have h : ((roundHE (a * 10 ^ d) : ℤ) : α) ≤ ((roundHE (b * 10 ^ d) : ℤ) : α) := by
    exact_mod_cast roundHE_le_roundHE (by nlinarith)
  gcongr

/-- Helper to evaluate `np_round` at arguments that are exact multiples of
`10 ^ (-d)`. -/
theorem np_round_eq_of_mul_eq {α : Type} [LinearOrderedField α] [FloorRing α]
    (d : ℕ) (q : α) (k : ℤ) (h : q * 10 ^ d = (k : α)) :
    np_round d q = (k : α) / 10 ^ d := by
  rw [np_round, h, roundHE_intCast]

/-! ### SimilarityEngine: `similarity_service.py`, `_compute_correlation`

The service receives a pivot table (rows = slots, columns = cells, missing
entries filled with 0 by `pivot_table(..., fill_value=0)`), computes the
pairwise Pearson correlation matrix `pivot.corr()`, replaces NaN entries by 0
(`.fillna(0)`), forces the diagonal to 1 (`np.fill_diagonal(..., 1.0)`),
rescales by `(corr + 1) / 2` and rounds to 4 decimals (`np.round(..., 4)`).

A pivot with `n` cells and `m` slots is modelled as `cols : Fin n → Fin m → ℚ`
(exact rationals for the float data).  Pearson correlation is
`S_xy / sqrt (S_xx * S_yy)` on mean-centered columns; pandas produces NaN
exactly when `S_xx = 0` or `S_yy = 0` (then also `S_xy = 0`, giving 0/0), so
the NaN-then-fillna(0) path is modelled by the `if ... then 0` branch. -/

noncomputable section

/-- Mean of a pivot column (`m` rows). -/
def col_mean (m : ℕ) (x : Fin m → ℚ) : ℝ := (∑ k, (x k : ℝ)) / m

/-- Centered dot product of two pivot columns: `∑ (x k - mean x) * (y k - mean y)`. -/
def centered_dot (m : ℕ) (x y : Fin m → ℚ) : ℝ :=
  ∑ k, ((x k : ℝ) - col_mean m x) * ((y k : ℝ) - col_mean m y)

/-- One entry of `pivot.corr().fillna(0)`: Pearson correlation with NaN
(zero-variance denominator) replaced by 0. -/
def compute_correlation_entry (m : ℕ) (x y : Fin m → ℚ) : ℝ :=
  if centered_dot m x x = 0 ∨ centered_dot m y y = 0 then 0
  else centered_dot m x y / Real.sqrt (centered_dot m x x * centered_dot m y y)

/-- One entry of the similarity matrix returned by `_compute_correlation`:
diagonal forced to 1, correlation rescaled from [-1,1] to [0,1] by
`(c + 1) / 2`, rounded to 4 decimals. -/
def similarity_entry (n m : ℕ) (cols : Fin n → Fin m → ℚ) (i j : Fin n) : ℝ :=
  np_round 4 (((if i = j then 1 else compute_correlation_entry m (cols i) (cols j)) + 1) / 2)

end

theorem centered_dot_comm (m : ℕ) (x y : Fin m → ℚ) :
    centered_dot m x y = centered_dot m y x := by
  unfold centered_dot
  exact Finset.sum_congr rfl fun k _ => mul_comm _ _

theorem compute_correlation_entry_comm (m : ℕ) (x y : Fin m → ℚ) :
    compute_correlation_entry m x y = compute_correlation_entry m y x := by
  unfold compute_correlation_entry
  rw [centered_dot_comm m x y, mul_comm (centered_dot m x x) (centered_dot m y y)]
  by_cases h : centered_dot m x x = 0 ∨ centered_dot m y y = 0
  · rw [if_pos h, if_pos (Or.symm h)]
  · rw [if_neg h, if_neg (fun hc => h (Or.symm hc))]

theorem np_round_four_one : np_round 4 (1 : ℝ) = 1 := by
  rw [np_round_eq_of_mul_eq 4 (1 : ℝ) 10000 (by norm_num)]
  norm_num

theorem np_round_four_half : np_round 4 ((1 : ℝ) / 2) = 1 / 2 := by
  rw [np_round_eq_of_mul_eq 4 ((1 : ℝ) / 2) 5000 (by norm_num)]
  norm_num

/-- Claim C1: every similarity matrix produced by the correlation method is
symmetric (`matrix[i][j] = matrix[j][i]` for all `i, j`) and every diagonal
entry equals exactly 1, for every valid pivot input. -/
theorem C1_similarity_symmetric_diagonal_one (n m : ℕ) (cols : Fin n → Fin m → ℚ)
    (i j : Fin n) :
    similarity_entry n m cols i j = similarity_entry n m cols j i ∧
      similarity_entry n m cols i i = 1 := by
  constructor
  · by_cases h : i = j
    · subst h; rfl
    · unfold similarity_entry
      rw [if_neg h, if_neg (fun hc => h hc.symm),
        compute_correlation_entry_comm m (cols i) (cols j)]
  · unfold similarity_entry
    rw [if_pos rfl]
    have : ((1 : ℝ) + 1) / 2 = 1 := by norm_num
    rw [this, np_round_four_one]

theorem centered_dot_self_zero_of_lt_two (m : ℕ) (hm : m < 2) (x : Fin m → ℚ) :
    centered_dot m x x = 0 := by
  match m, hm with
  | 0, _ => simp [centered_dot]
  | 1, _ =>
    simp only [centered_dot, col_mean, Fin.sum_univ_one]
    norm_num

/-- Concrete degenerate pivot: 2 cells over 2 slots, cell 0 has a
zero-variance (constant) signal. -/
def degenerate_pivot : Fin 2 → Fin 2 → ℚ := ![![1, 1], ![0, 1]]

theorem degenerate_pivot_zero_variance :
    centered_dot 2 (degenerate_pivot 0) (degenerate_pivot 0) = 0 := by
  simp only [centered_dot, col_mean, degenerate_pivot, Fin.sum_univ_two,
    Matrix.cons_val_zero, Matrix.cons_val_one, Matrix.head_cons]
  norm_num

/-- Claim C5, counterexample: for the pair (cell 0, cell 1) of
`degenerate_pivot`, cell 0 has a zero-variance signal, so the pairwise
correlation is NaN→0; but the output similarity entry is `(0+1)/2 = 0.5`,
not `0` as the claim states (and no degenerate flag exists in the code). -/
theorem C5_counterexample_degenerate_similarity_is_half :
    similarity_entry 2 2 degenerate_pivot 0 1 = 1 / 2 ∧ ((1 : ℝ) / 2) ≠ 0 := by
  constructor
  · unfold similarity_entry
    rw [if_neg (by decide : ¬((0 : Fin 2) = 1))]
    unfold compute_correlation_entry
    rw [if_pos (Or.inl degenerate_pivot_zero_variance)]
    have : ((0 : ℝ) + 1) / 2 = 1 / 2 := by norm_num
    rw [this, np_round_four_half]
  · norm_num

/-- Claim C5, amended: for every pair of distinct cells where at least one
signal has zero variance, or with fewer than 2 (overlapping) slots, the
pairwise Pearson correlation would be NaN and is replaced by 0 instead of
propagating; consequently the pair's output similarity entry is
`(0+1)/2 = 0.5` (not 0), the whole-matrix computation never aborts, and no
degenerate flag is recorded. -/
theorem C5_amended_degenerate_pair_similarity_half (n m : ℕ)
    (cols : Fin n → Fin m → ℚ) (i j : Fin n) (hij : i ≠ j)
    (hdeg : m < 2 ∨ centered_dot m (cols i) (cols i) = 0 ∨
      centered_dot m (cols j) (cols j) = 0) :
    compute_correlation_entry m (cols i) (cols j) = 0 ∧
      similarity_entry n m cols i j = 1 / 2 := by
  have hzero : centered_dot m (cols i) (cols i) = 0 ∨
      centered_dot m (cols j) (cols j) = 0 := by
    rcases hdeg with hm | h | h
    · exact Or.inl (centered_dot_self_zero_of_lt_two m hm (cols i))
    · exact Or.inl h
    · exact Or.inr h
  have hcorr : compute_correlation_entry m (cols i) (cols j) = 0 := by
    unfold compute_correlation_entry
    rw [if_pos hzero]
  refine ⟨hcorr, ?_⟩
  unfold similarity_entry
  rw [if_neg hij, hcorr]
  have : ((0 : ℝ) + 1) / 2 = 1 / 2 := by norm_num
  rw [this, np_round_four_half]

/-- Witness for `C5_amended_degenerate_pair_similarity_half` at the concrete
degenerate input. -/
theorem C5_amended_witness :
    compute_correlation_entry 2 (degenerate_pivot 0) (degenerate_pivot 1) = 0 ∧
      similarity_entry 2 2 degenerate_pivot 0 1 = 1 / 2 :=
  C5_amended_degenerate_pair_similarity_half 2 2 degenerate_pivot 0 1
    (by decide) (Or.inr (Or.inl degenerate_pivot_zero_variance))

/-! ### AnomalyDetector: `ML/step2_detect_anomalies.py`

Per (cell, slot) row the script computes a robust z-score
`z = (throughput - rolling_median) / (rolling_MAD + 1e-6)`, then
  * `anomaly = (z < Z_THRESHOLD)` with `Z_THRESHOLD = -3.5`,
  * `confidence = clip(|z| / |Z_THRESHOLD|, 0, 1)`,
  * `confidence = 0` on every row with `anomaly == 0`.
Rows inside the warm-up of the rolling window have `z = NaN` (modelled as
`none`); a NaN comparison is false, so such rows are never anomalies. -/

/-- `Z_THRESHOLD = -3.5` from `step2_detect_anomalies.py`. -/
def z_threshold : ℚ := -(7 / 2)

/-- `df["anomaly"] = (df["z_score"] < Z_THRESHOLD).astype(int)`;
`none` models a NaN z-score (comparison with NaN is false). -/
def step2_anomaly (z : Option ℚ) : Bool :=
  match z with
  | none => false
  | some v => decide (v < z_threshold)

/-- `df["confidence"] = (np.abs(df["z_score"]) / abs(Z_THRESHOLD)).clip(0.0, 1.0)`
(NaN in, NaN out). -/
def step2_confidence_raw (z : Option ℚ) : Option ℚ :=
  z.map fun v => min (max (|v| / |z_threshold|) 0) 1

/-- The stored per-row confidence after
`df.loc[df["anomaly"] == 0, "confidence"] = 0.0`. -/
def step2_confidence (z : Option ℚ) : ℚ :=
  if step2_anomaly z then (step2_confidence_raw z).getD 0 else 0

/-- Claim C4: for every anomaly record produced by the AnomalyDetector
(`anomaly`/`confidence` columns of `step2_detect_anomalies.py`), if the binary
anomaly flag is false then the stored confidence equals 0. -/
theorem C4_no_flag_no_confidence (z : Option ℚ) (h : step2_anomaly z = false) :
    step2_confidence z = 0 := by
  unfold step2_confidence
  rw [h]
  rfl

theorem step2_anomaly_eq_false_iff (v : ℚ) :
    step2_anomaly (some v) = false ↔ z_threshold ≤ v := by
  simp only [step2_anomaly, decide_eq_false_iff_not, not_lt]

theorem step2_anomaly_eq_true_iff (v : ℚ) :
    step2_anomaly (some v) = true ↔ v < z_threshold := by
  simp only [step2_anomaly, decide_eq_true_eq]

/-- Witness for `C4_no_flag_no_confidence` at the concrete z-score 0
(a non-anomalous row). -/
theorem C4_no_flag_no_confidence_witness :
    step2_anomaly (some 0) = false ∧ step2_confidence (some 0) = 0 :=
  ⟨(step2_anomaly_eq_false_iff 0).2 (by norm_num [z_threshold]),
    C4_no_flag_no_confidence (some 0)
      ((step2_anomaly_eq_false_iff 0).2 (by norm_num [z_threshold]))⟩

/-- Claim C3, counterexample: at z-score `-21/4` (detection metric 1.75 past
the threshold 3.5, i.e. halfway to "twice the threshold"), the claim's linear
ramp predicts confidence `(21/4 - 3.5) / 3.5 = 1/2`, but the code computes
`clip(|z| / 3.5, 0, 1) = 1`: there is no linear rise from 0 at the threshold. -/
theorem C3_counterexample_no_linear_ramp :
    step2_confidence (some (-(21 / 4))) = 1 ∧
      ((21 / 4 : ℚ) - 7 / 2) / (7 / 2) = 1 / 2 ∧ (1 : ℚ) ≠ 1 / 2 := by
  refine ⟨?_, by norm_num, by norm_num⟩
  have hflag : step2_anomaly (some (-(21 / 4))) = true :=
    (step2_anomaly_eq_true_iff _).2 (by norm_num [z_threshold])
  unfold step2_confidence
  rw [hflag, if_pos rfl]
  simp only [step2_confidence_raw, Option.map_some', Option.getD_some]
  rw [show |(-(21 / 4) : ℚ)| = 21 / 4 by rw [abs_neg, abs_of_nonneg] ; norm_num,
    show |z_threshold| = 7 / 2 by rw [z_threshold, abs_neg, abs_of_nonneg] ; norm_num]
  rw [max_eq_left (by norm_num), min_eq_right (by norm_num)]

/-- Claim C3, amended: the code computes `confidence = clip(|z|/3.5, 0, 1)`
and forces it to 0 on non-flagged rows.  Since the flag requires `z < -3.5`,
every anomalous record has `|z|/3.5 > 1` and hence confidence exactly 1.0:
confidence is 0 at (and before) the exact detection threshold and jumps
discontinuously to the clip value 1.0 immediately past it — there is no
linear ramp up to twice the threshold.  It is still monotonically
non-decreasing in the metric's distance past the threshold. -/
theorem C3_amended_confidence_clips_to_one (z : ℚ) :
    (step2_anomaly (some z) = true → step2_confidence (some z) = 1) ∧
      (z_threshold ≤ z → step2_confidence (some z) = 0) ∧
      (∀ w : ℚ, w ≤ z → step2_confidence (some z) ≤ step2_confidence (some w)) := by
  have hthr_neg : (z_threshold : ℚ) < 0 := by norm_num [z_threshold]
  have hval : ∀ v : ℚ, v < z_threshold → step2_confidence (some v) = 1 := by
    intro v hv
    have hflag : step2_anomaly (some v) = true := (step2_anomaly_eq_true_iff v).2 hv
    have hvneg : v < 0 := lt_trans hv hthr_neg
    have habs : (1 : ℚ) ≤ |v| / |z_threshold| := by
      rw [le_div_iff₀ (abs_pos.2 (ne_of_lt hthr_neg)), one_mul,
        abs_of_neg hvneg, abs_of_neg hthr_neg]
      simp only [z_threshold] at hv ⊢
      linarith
    unfold step2_confidence
    rw [hflag, if_pos rfl]
    simp only [step2_confidence_raw, Option.map_some', Option.getD_some]
    rw [max_eq_left (le_trans zero_le_one habs), min_eq_right habs]
  have hzero : ∀ v : ℚ, z_threshold ≤ v → step2_confidence (some v) = 0 := by
    intro v hv
    have hflag : step2_anomaly (some v) = false := (step2_anomaly_eq_false_iff v).2 hv
    unfold step2_confidence
    rw [hflag]
    rfl
  refine ⟨fun hflag => hval z ((step2_anomaly_eq_true_iff z).1 hflag), hzero z, ?_⟩
  intro w hw
  by_cases hz : z < z_threshold
  · rw [hval z hz, hval w (lt_of_le_of_lt hw hz)]
  · rw [hzero z (not_lt.1 hz)]
    by_cases hwz : w < z_threshold
    · rw [hval w hwz]; norm_num
    · rw [hzero w (not_lt.1 hwz)]

/-- Witness for `C3_amended_confidence_clips_to_one` at concrete z-scores
-4 (anomalous) and -3 (not anomalous). -/
theorem C3_amended_witness :
    step2_confidence (some (-4)) = 1 ∧ step2_confidence (some (-3)) = 0 ∧
      step2_confidence (some (-3)) ≤ step2_confidence (some (-4)) :=
  ⟨(C3_amended_confidence_clips_to_one (-4)).1
      ((step2_anomaly_eq_true_iff _).2 (by norm_num [z_threshold])),
    (C3_amended_confidence_clips_to_one (-3)).2.1 (by norm_num [z_threshold]),
    (C3_amended_confidence_clips_to_one (-3)).2.2 (-4) (by norm_num)⟩

/-! ### TopologyInferencer: `topology_service.py` (+ scipy semantics)

`infer_topology` converts similarity to distance (`1 - matrix`, diagonal
forced to 0), runs scipy `linkage(condensed, method="average")` and
`fcluster(Z, t, criterion="distance")`, shifts labels to 0-based, and builds
group/assignment records.

scipy semantics modelled here (for 3 observations, which is all the concrete
claims need):
  * `linkage` merges the closest pair first; with average linkage the second
    (root) merge height is the mean of the two remaining distances.  After
    scipy's `label()` pass each row of `Z` lists the two merged cluster ids in
    increasing order.
  * `fcluster(..., criterion="distance")` assigns cluster labels by a
    depth-first traversal from the root that descends into an internal child
    before labelling leaf children (`cluster_monocrit` in scipy's
    `_hierarchy.pyx`).  Consequently, when the first merge {i,j} stays below
    the cut, its leaves receive label 1 and the remaining singleton k receives
    label 2 — regardless of which cell id is smallest.  When the cut separates
    everything, the traversal labels i, j (the first-merged pair, in id order)
    1 and 2 and the remaining leaf k gets 3. -/

structure TopologyGroup where
  group_id : String
  group_name : String
  cells : List ℕ
  avg_similarity : ℚ
  cell_count : ℕ
  deriving DecidableEq

def link_names : List String := ["Link_A", "Link_B", "Link_C", "Link_D", "Link_E"]

/-- `sorted(set(labels) - {-1})` from `_build_groups` (noise label -1 removed,
duplicates removed, ascending order). -/
def unique_labels (labels : List ℤ) : List ℤ :=
  List.insertionSort (· ≤ ·) (labels.dedup.filter (fun l => decide (l ≠ -1)))

/-- `np.where(labels == label)[0]`. -/
def label_indices (labels : List ℤ) (label : ℤ) : List ℕ :=
  (labels.enum.filter (fun p => decide (p.2 = label))).map Prod.fst

/-- `similarity_matrix[np.ix_(indices, indices)].sum()`. -/
def group_sim_sum (indices : List ℕ) (M : ℕ → ℕ → ℚ) : ℚ :=
  (indices.map (fun a => (indices.map (fun b => M a b)).sum)).sum

/-- `_build_groups` from `topology_service.py`: one group per distinct
non-noise label in ascending label order; `group_id = "Group_{i+1}"`;
average intra-group similarity `(submatrix.sum() - k) / (k * (k - 1))`
(the diagonal of a similarity matrix is 1), rounded to 3 decimals; singleton
groups get average similarity 1.0. -/
def build_groups (cell_ids : List ℕ) (labels : List ℤ) (M : ℕ → ℕ → ℚ) :
    List TopologyGroup :=
  (unique_labels labels).enum.map fun p =>
    let indices := label_indices labels p.2
    let cells := indices.map fun idx => cell_ids.getD idx 0
    let avg_sim : ℚ :=
      if 1 < indices.length then
        (group_sim_sum indices M - indices.length) /
          ((indices.length : ℚ) * ((indices.length : ℚ) - 1))
      else 1
    { group_id := "Group_" ++ toString (p.1 + 1)
      group_name := link_names.getD (p.1 % link_names.length) ""
      cells := cells
      avg_similarity := np_round 3 avg_sim
      cell_count := cells.length }

/-- The label function produced by scipy `fcluster` on the 3-leaf dendrogram
that first merges observations `i < j` at height `h1` and then merges in the
remaining observation `k` at height `h2` (see section comment for the
traversal order behind the label numbering). -/
def merge3 {α : Type} [LinearOrderedField α] (i j k : ℕ) (h1 h2 t : α) : ℕ → ℕ :=
  if h2 ≤ t then fun _ => 1
  else if h1 ≤ t then fun x => if x = k then 2 else 1
  else fun x => if x = i then 1 else if x = j then 2 else 3

/-- scipy `linkage(squareform(D), "average")` + `fcluster(Z, t, "distance")`
for 3 observations: merge the closest pair, average-link the third, cut at
`t`.  (The claims' concrete inputs have pairwise-distinct distances, so the
tie-breaking order among equal distances is irrelevant.) -/
def hierarchical_clustering3 {α : Type} [LinearOrderedField α]
    (D : ℕ → ℕ → α) (t : α) : ℕ → ℕ :=
  let d01 := D 0 1
  let d02 := D 0 2
  let d12 := D 1 2
  if d01 ≤ d02 ∧ d01 ≤ d12 then merge3 0 1 2 d01 ((d02 + d12) / 2) t
  else if d02 ≤ d12 then merge3 0 2 1 d02 ((d01 + d12) / 2) t
  else merge3 1 2 0 d12 ((d01 + d02) / 2) t

/-- `distance_matrix = 1 - matrix; np.fill_diagonal(distance_matrix, 0)`. -/
def distance_of (M : ℕ → ℕ → ℚ) : ℕ → ℕ → ℚ :=
  fun i j => if i = j then 0 else 1 - M i j

/-- `infer_topology` (hierarchical path, no `num_clusters`) followed by
`_build_groups`, for a 3-cell similarity matrix: cluster labels are shifted
to 0-based (`labels - 1`) before grouping. -/
def infer_topology3 (M : ℕ → ℕ → ℚ) (t : ℚ) (cell_ids : List ℕ) :
    List TopologyGroup :=
  let T := hierarchical_clustering3 (distance_of M) t
  build_groups cell_ids [(T 0 : ℤ) - 1, (T 1 : ℤ) - 1, (T 2 : ℤ) - 1] M

/-- The similarity matrix `[[1, .9, .1], [.9, 1, .12], [.1, .12, 1]]` from the
spec's testable property. -/
def sim_mat_C6 : ℕ → ℕ → ℚ :=
  fun i j => (([[1, 9/10, 1/10], [9/10, 1, 3/25], [1/10, 3/25, 1]] :
    List (List ℚ)).getD i []).getD j 0

theorem hierarchical_C6 (t : ℚ) (ht1 : 1 / 10 < t) (ht2 : t < 22 / 25) :
    hierarchical_clustering3 (distance_of sim_mat_C6) t =
      fun x => if x = 2 then 2 else 1 := by
  have h01 : distance_of sim_mat_C6 0 1 = 1 / 10 := by
    norm_num [distance_of, sim_mat_C6]
  have h02 : distance_of sim_mat_C6 0 2 = 9 / 10 := by
    norm_num [distance_of, sim_mat_C6]
  have h12 : distance_of sim_mat_C6 1 2 = 22 / 25 := by
    norm_num [distance_of, sim_mat_C6]
  unfold hierarchical_clustering3
  rw [h01, h02, h12,
    if_pos (by norm_num : (1/10 : ℚ) ≤ 9/10 ∧ (1/10 : ℚ) ≤ 22/25)]
  unfold merge3
  rw [if_neg (by intro hc; rw [show ((9:ℚ)/10 + 22/25) / 2 = 89/100 by norm_num] at hc; linarith),
    if_pos (le_of_lt ht1)]

/-- Claim C6: for the similarity matrix `[[1,.9,.1],[.9,1,.12],[.1,.12,1]]`
and any distance cut threshold strictly between 0.1 and 0.88, hierarchical
topology inference with average linkage places cells 0 and 1 together in one
group and cell 2 alone in a singleton group. -/
theorem C6_two_cluster_cut (t : ℚ) (ht1 : 1 / 10 < t) (ht2 : t < 22 / 25) :
    (infer_topology3 sim_mat_C6 t [0, 1, 2]).map (fun g => g.cells) =
      [[0, 1], [2]] := by
  unfold infer_topology3
  rw [hierarchical_C6 t ht1 ht2]
  decide

/-- Witness for `C6_two_cluster_cut` at the service's default threshold 0.5. -/
theorem C6_two_cluster_cut_witness :
    (infer_topology3 sim_mat_C6 (1 / 2) [0, 1, 2]).map (fun g => g.cells) =
      [[0, 1], [2]] :=
  C6_two_cluster_cut (1 / 2) (by norm_num) (by norm_num)

/-- Similarity matrix where cells 1 and 2 are strongly correlated and cell 0
is dissimilar to both: `[[1, .1, .12], [.1, 1, .9], [.12, .9, 1]]`. -/
def sim_mat_C8 : ℕ → ℕ → ℚ :=
  fun i j => (([[1, 1/10, 3/25], [1/10, 1, 9/10], [3/25, 9/10, 1]] :
    List (List ℚ)).getD i []).getD j 0

theorem hierarchical_C8 :
    hierarchical_clustering3 (distance_of sim_mat_C8) (1 / 2) =
      fun x => if x = 0 then 2 else 1 := by
  have h01 : distance_of sim_mat_C8 0 1 = 9 / 10 := by
    norm_num [distance_of, sim_mat_C8]
  have h02 : distance_of sim_mat_C8 0 2 = 22 / 25 := by
    norm_num [distance_of, sim_mat_C8]
  have h12 : distance_of sim_mat_C8 1 2 = 1 / 10 := by
    norm_num [distance_of, sim_mat_C8]
  unfold hierarchical_clustering3
  rw [h01, h02, h12,
    if_neg (by intro hc; have := hc.1; linarith),
    if_neg (by intro hc; linarith)]
  unfold merge3
  rw [if_neg (by intro hc; rw [show ((9:ℚ)/10 + 22/25) / 2 = 89/100 by norm_num] at hc; linarith),
    if_pos (by norm_num : (1:ℚ)/10 ≤ 1/2)]

/-- Claim C8, counterexample: on `sim_mat_C8` with the service's default
distance threshold 0.5, scipy's fcluster labels the first-merged pair {1, 2}
as cluster 1 and the singleton {0} as cluster 2, so `_build_groups` emits
Group_1 = {1, 2} and Group_2 = {0}: the group containing the smallest cell id
(0) gets the LARGER group number, refuting "groups are numbered in ascending
order of the smallest cell id they contain". -/
theorem C8_counterexample_numbering_not_by_smallest_cell :
    (infer_topology3 sim_mat_C8 (1 / 2) [0, 1, 2]).map (fun g => g.group_id) =
        ["Group_1", "Group_2"] ∧
      (infer_topology3 sim_mat_C8 (1 / 2) [0, 1, 2]).map (fun g => g.cells) =
        [[1, 2], [0]] ∧
      ¬ List.Sorted (· ≤ ·)
        ((infer_topology3 sim_mat_C8 (1 / 2) [0, 1, 2]).map
          (fun g => g.cells.min?.getD 0)) := by
  unfold infer_topology3
  rw [hierarchical_C8]
  refine ⟨by decide, by decide, by decide⟩

theorem map_enum_fst {X Y : Type} (l : List X) (g : ℕ → Y) :
    l.enum.map (fun p => g p.1) = (List.range l.length).map g := by
  rw [show (fun p : ℕ × X => g p.1) = g ∘ Prod.fst from rfl, ← List.map_map,
    List.enum_map_fst]

theorem map_enum_snd {X Y : Type} (l : List X) (g : X → Y) :
    l.enum.map (fun p => g p.2) = l.map g := by
  rw [show (fun p : ℕ × X => g p.2) = g ∘ Prod.snd from rfl, ← List.map_map,
    List.enum_map_snd]

/-- Claim C8, amended: groups are numbered `Group_1 .. Group_k` in ascending
order of their (0-based) fcluster label — scipy assigns those labels by
dendrogram traversal order, not by smallest member cell id — and the i-th
group's members are exactly the cells carrying the i-th smallest non-noise
label.  The numbering is deterministic (the whole procedure is a pure
function of the similarity matrix and threshold), but it does NOT in general
follow the ascending order of the smallest cell id of each group. -/
theorem C8_amended_group_numbering (cell_ids : List ℕ) (labels : List ℤ)
    (M : ℕ → ℕ → ℚ) :
    (build_groups cell_ids labels M).map (fun g => g.group_id) =
        (List.range (unique_labels labels).length).map
          (fun i => "Group_" ++ toString (i + 1)) ∧
      List.Sorted (· < ·) (unique_labels labels) ∧
      (build_groups cell_ids labels M).map (fun g => g.cells) =
        (unique_labels labels).map
          (fun l => (label_indices labels l).map (fun idx => cell_ids.getD idx 0)) := by
  refine ⟨?_, ?_, ?_⟩
  · unfold build_groups
    rw [List.map_map]
    exact map_enum_fst _ (fun i => "Group_" ++ toString (i + 1))
  · have hs : List.Sorted (· ≤ ·) (unique_labels labels) :=
      List.sorted_insertionSort _ _
    have hn : (unique_labels labels).Nodup := by
      have h1 : (labels.dedup.filter (fun l => decide (l ≠ -1))).Nodup :=
        (List.nodup_dedup labels).filter _
      exact ((List.perm_insertionSort _ _).nodup_iff).2 h1
    exact (List.Pairwise.and hs hn).imp fun h => lt_of_le_of_ne h.1 h.2
  · unfold build_groups
    rw [List.map_map]
    exact map_enum_snd _
      (fun l => (label_indices labels l).map (fun idx => cell_ids.getD idx 0))

structure CellAssignment where
  cell_id : ℕ
  group_id : String
  confidence : ℚ
  deriving DecidableEq

/-- `_build_assignments` from `topology_service.py`.  The loop draws one
`np.random.uniform(-0.05, 0.05)` per iteration; the draw of iteration `i` is
modelled as `jitter i`.  `confidence = round(group_avg + jitter, 2)` where
`group_avg` is the assigned group's `avg_similarity` (0.5 if the label is out
of range); noise label -1 is skipped. -/
def build_assignments (cell_ids : List ℕ) (labels : List ℤ)
    (groups : List TopologyGroup) (jitter : ℕ → ℚ) : List CellAssignment :=
  (cell_ids.zip labels).enum.filterMap fun p =>
    let i := p.1
    let cid := p.2.1
    let label := p.2.2
    if label = -1 then none
    else
      let conf : ℚ :=
        match groups.get? label.toNat with
        | some g => g.avg_similarity
        | none => 1 / 2
      some { cell_id := cid
             group_id := "Group_" ++ toString (label + 1)
             confidence := np_round 2 (conf + jitter i) }

/-- 2-cell similarity matrix with off-diagonal similarity 0.95. -/
def sim_mat_C2 : ℕ → ℕ → ℚ := fun i j => if i = j then 1 else 19 / 20

theorem build_groups_C2 :
    build_groups [0, 1] [0, 0] sim_mat_C2 =
      [⟨"Group_1", "Link_A", [0, 1], 19 / 20, 2⟩] := by
  unfold build_groups
  rw [show unique_labels [0, 0] = [0] by decide]
  rw [show ([0] : List ℤ).enum = [(0, 0)] by decide]
  simp only [List.map_cons, List.map_nil]
  rw [show label_indices [0, 0] 0 = [0, 1] by decide]
  simp only [List.cons.injEq, and_true, TopologyGroup.mk.injEq]
  refine ⟨by decide, by decide, by decide, ?_, by decide⟩
  rw [if_pos (by norm_num : 1 < ([0, 1] : List ℕ).length)]
  rw [show group_sim_sum [0, 1] sim_mat_C2 = 39 / 10 by
    norm_num [group_sim_sum, sim_mat_C2]]
  rw [show ((39 : ℚ) / 10 - ((([0, 1] : List ℕ).length : ℚ))) /
      ((([0, 1] : List ℕ).length : ℚ) * ((([0, 1] : List ℕ).length : ℚ) - 1)) =
      19 / 20 by norm_num]
  rw [np_round_eq_of_mul_eq 3 _ 950 (by norm_num)]
  norm_num

/-- Claim C2, code-bug exhibit: `_build_assignments` adds
`np.random.uniform(-0.05, 0.05)` to the group average before rounding.  With
the 2-cell matrix `sim_mat_C2` (group average similarity 0.95), the legal
draws 0 and 0.03 (both inside the uniform's support, see the last conjuncts)
produce confidences 0.95 and 0.98 respectively: two runs on identical input
differ, and the assigned confidence does not equal the group's average
intra-group similarity. -/
theorem C2_code_bug_randomized_confidence :
    (build_assignments [0, 1] [0, 0] (build_groups [0, 1] [0, 0] sim_mat_C2)
        (fun _ => 0)).map (fun a => a.confidence) = [19 / 20, 19 / 20] ∧
      (build_assignments [0, 1] [0, 0] (build_groups [0, 1] [0, 0] sim_mat_C2)
        (fun _ => 3 / 100)).map (fun a => a.confidence) = [49 / 50, 49 / 50] ∧
      build_assignments [0, 1] [0, 0] (build_groups [0, 1] [0, 0] sim_mat_C2)
          (fun _ => 0) ≠
        build_assignments [0, 1] [0, 0] (build_groups [0, 1] [0, 0] sim_mat_C2)
          (fun _ => 3 / 100) ∧
      |(0 : ℚ)| ≤ 1 / 20 ∧ |(3 / 100 : ℚ)| ≤ 1 / 20 ∧ (19 / 20 : ℚ) ≠ 49 / 50 := by
  have heval : ∀ u : ℚ,
      (build_assignments [0, 1] [0, 0] (build_groups [0, 1] [0, 0] sim_mat_C2)
          (fun _ => u)).map (fun a => a.confidence) =
        [np_round 2 (19 / 20 + u), np_round 2 (19 / 20 + u)] := by
    intro u
    rw [build_groups_C2]
    unfold build_assignments
    rw [show (([0, 1] : List ℕ).zip ([0, 0] : List ℤ)).enum =
      [(0, (0, 0)), (1, (1, 0))] by decide]
    simp only [List.filterMap_cons, List.filterMap_nil]
    norm_num [List.get?]
  have h0 : np_round 2 ((19 : ℚ) / 20 + 0) = 19 / 20 := by
    rw [np_round_eq_of_mul_eq 2 _ 95 (by norm_num)]
    norm_num
  have h3 : np_round 2 ((19 : ℚ) / 20 + 3 / 100) = 49 / 50 := by
    rw [np_round_eq_of_mul_eq 2 _ 98 (by norm_num)]
    norm_num
  have hm0 := heval 0
  have hm3 := heval (3 / 100)
  rw [h0] at hm0
  rw [h3] at hm3
  refine ⟨hm0, hm3, ?_, by rw [abs_zero]; norm_num,
    by rw [abs_of_nonneg (by norm_num : (0:ℚ) ≤ 3 / 100)]; norm_num, by norm_num⟩
  intro hc
  have hmaps := congrArg (List.map (fun a : CellAssignment => a.confidence)) hc
  rw [hm0, hm3, List.cons.injEq] at hmaps
  have := hmaps.1
  norm_num at this

/-! ### Adaptive cut threshold: `ML/step3_propagation_analysis.py`

The ML clustering script (the pipeline variant that receives neither a
cluster count nor an explicit distance threshold) cuts the average-linkage
dendrogram at
`DISTANCE_THRESHOLD = np.median(upper_triangle) + 0.5 * np.std(upper_triangle)`
where `upper_triangle` lists the strict upper-triangle entries of the
distance matrix `1 - similarity` in row-major order
(`np.triu_indices_from(..., k=1)`).  (The backend service's
`_hierarchical_clustering` always receives an explicit `distance_threshold`
parameter — default 0.5 — and has no auto mode.) -/

/-- Strict upper-triangle entries of an `nsize × nsize` matrix, row-major
(the order produced by `np.triu_indices_from(m, k=1)`). -/
def upper_triangle (nsize : ℕ) (D : ℕ → ℕ → ℚ) : List ℚ :=
  (List.range nsize).flatMap fun i =>
    ((List.range nsize).filter fun j => decide (i < j)).map fun j => D i j

/-- `np.median`: middle element of the sorted list (odd length), or the mean
of the two middle elements (even length). -/
def np_median (l : List ℚ) : ℚ :=
  let s := List.insertionSort (· ≤ ·) l
  if s.length = 0 then 0
  else if s.length % 2 = 1 then s.getD (s.length / 2) 0
  else (s.getD (s.length / 2 - 1) 0 + s.getD (s.length / 2) 0) / 2

def list_mean (l : List ℚ) : ℚ := l.sum / l.length

/-- Population variance (the square of `np.std`). -/
def pop_variance (l : List ℚ) : ℚ :=
  ((l.map fun x => (x - list_mean l) ^ 2).sum) / l.length

/-- `np.std`: square root of the population variance. -/
noncomputable def np_std (l : List ℚ) : ℝ := Real.sqrt ((pop_variance l : ℚ) : ℝ)

/-- `DISTANCE_THRESHOLD = np.median(upper_triangle) + 0.5 * np.std(upper_triangle)`. -/
noncomputable def step3_distance_threshold (nsize : ℕ) (D : ℕ → ℕ → ℚ) : ℝ :=
  ((np_median (upper_triangle nsize D) : ℚ) : ℝ) +
    (1 / 2) * np_std (upper_triangle nsize D)

/-- The step3 pipeline for a 3-cell similarity matrix: distance `1 - S`,
average-linkage dendrogram, cut at the adaptive threshold. -/
noncomputable def step3_cluster_labels (S : ℕ → ℕ → ℚ) : ℕ → ℕ :=
  hierarchical_clustering3 (fun i j => ((1 - S i j : ℚ) : ℝ))
    (step3_distance_threshold 3 (fun i j => 1 - S i j))

/-- Claim C7: in the auto case (no cluster count, no explicit threshold —
the `step3_propagation_analysis.py` pipeline), the dendrogram is cut at the
adaptive threshold `median(upper-triangle distances) + 0.5 * std(upper-triangle
distances)`, and this threshold is not a fixed constant (two distance matrices
with different spreads give different thresholds). -/
theorem C7_adaptive_threshold :
    (∀ S : ℕ → ℕ → ℚ, step3_cluster_labels S =
        hierarchical_clustering3 (fun i j => ((1 - S i j : ℚ) : ℝ))
          (((np_median (upper_triangle 3 fun i j => 1 - S i j) : ℚ) : ℝ) +
            (1 / 2) *
              Real.sqrt ((pop_variance (upper_triangle 3 fun i j => 1 - S i j) : ℚ) : ℝ))) ∧
      step3_distance_threshold 3 (fun i j => if i = j then 0 else 1 / 5) ≠
        step3_distance_threshold 3 (fun i j => if i = j then 0 else 2 / 5) := by
  constructor
  · intro S
    rfl
  · have hu1 : upper_triangle 3 (fun i j => if i = j then 0 else (1 : ℚ) / 5) =
        [1 / 5, 1 / 5, 1 / 5] := by
      norm_num [upper_triangle, List.range_succ]
    have hu2 : upper_triangle 3 (fun i j => if i = j then 0 else (2 : ℚ) / 5) =
        [2 / 5, 2 / 5, 2 / 5] := by
      norm_num [upper_triangle, List.range_succ]
    have hmed : ∀ q : ℚ, np_median [q, q, q] = q := by
      intro q
      simp [np_median, List.insertionSort, List.orderedInsert]
    have hvar : ∀ q : ℚ, pop_variance [q, q, q] = 0 := by
      intro q
      have hmean : list_mean [q, q, q] = q := by
        simp [list_mean]
        ring
      simp [pop_variance, hmean]
    unfold step3_distance_threshold np_std
    rw [hu1, hu2, hmed, hmed, hvar, hvar]
    norm_num

/-! ### PropagationAnalyzer: `propagation_service.py`, `_build_propagation_paths`

`_build_propagation_paths` builds a python dict `adjacency` mapping each
source group to the list of its outgoing `(target, event)` pairs in event
order (python dicts preserve insertion order), then for each start key walks:
while the current group is a key and not yet visited, mark it visited, follow
`next_hops[0]` (the FIRST recorded outgoing edge), appending the target to the
path and accumulating `total_delay += event.delay_ms`,
`strengths.append(event.correlation)`.  Paths with more than 2 entries are
reported with `total_delay` (rounded to 2), `strength = round(mean, 3)` and
ids `path_001, path_002, ...`; with fewer than 2 events the function returns
no paths.

The while loop marks one unvisited key per iteration, so it runs at most
`adjacency.length` iterations; `walk_loop` below carries that number as
explicit fuel (`walk_loop_fuel_sufficient` proves the fuel bound is enough). -/

structure PropEvent where
  source_group : String
  target_group : String
  delay_ms : ℚ
  correlation : ℚ
  deriving DecidableEq

structure PropPath where
  path_id : String
  sequence : List String
  total_delay_ms : ℚ
  strength : ℚ
  path_type : String
  deriving DecidableEq

/-- Append one event to the adjacency dict (insertion-ordered, as python
dicts are). -/
def add_edge (adj : List (String × List PropEvent)) (src : String) (e : PropEvent) :
    List (String × List PropEvent) :=
  match adj with
  | [] => [(src, [e])]
  | (k, es) :: rest =>
    if k = src then (k, es ++ [e]) :: rest else (k, es) :: add_edge rest src e

/-- The `adjacency` dict of `_build_propagation_paths`. -/
def build_adjacency (events : List PropEvent) : List (String × List PropEvent) :=
  events.foldl (fun adj e => add_edge adj e.source_group e) []

/-- Dict lookup `adjacency[current]` (`none` when `current not in adjacency`). -/
def adj_find (adj : List (String × List PropEvent)) (key : String) :
    Option (List PropEvent) :=
  (adj.find? fun p => decide (p.1 = key)).map Prod.snd

/-- The while loop of `_build_propagation_paths`, with the accumulators
`path`, `total_delay`, `strengths` exactly as in the source and explicit
fuel. -/
def walk_loop (adj : List (String × List PropEvent)) (fuel : ℕ)
    (visited : List String) (current : String) (path : List String)
    (total_delay : ℚ) (strengths : List ℚ) : List String × ℚ × List ℚ :=
  match fuel with
  | 0 => (path, total_delay, strengths)
  | fuel + 1 =>
    match adj_find adj current with
    | none => (path, total_delay, strengths)
    | some next_hops =>
      if current ∈ visited then (path, total_delay, strengths)
      else
        match next_hops with
        | [] => (path, total_delay, strengths)
        | e :: _ =>
          walk_loop adj fuel (current :: visited) e.target_group
            (path ++ [e.target_group]) (total_delay + e.delay_ms)
            (strengths ++ [e.correlation])

/-- `f"path_{counter:03d}"`. -/
def pad3 (n : ℕ) : String :=
  if n < 10 then "00" ++ toString n
  else if n < 100 then "0" ++ toString n
  else toString n

/-- One iteration of the `for start in adjacency` loop of
`_build_propagation_paths`: walk from `start`, report the path if it has more
than 2 entries (`total_delay` rounded to 2 decimals, `strength` the mean
correlation rounded to 3, sequential `path_{counter:03d}` ids). -/
def path_step (adj : List (String × List PropEvent))
    (acc : List PropPath × ℕ) (start : String) : List PropPath × ℕ :=
  let r := walk_loop adj adj.length [] start [start] 0 []
  if 2 < r.1.length then
    (acc.1 ++ [{ path_id := "path_" ++ pad3 acc.2
                 sequence := r.1
                 total_delay_ms := np_round 2 r.2.1
                 strength := np_round 3 (r.2.2.sum / r.2.2.length)
                 path_type := "cascading_congestion" }], acc.2 + 1)
  else acc

/-- `_build_propagation_paths`. -/
def build_propagation_paths (events : List PropEvent) : List PropPath :=
  if events.length < 2 then []
  else
    let adjacency := build_adjacency events
    ((adjacency.map Prod.fst).foldl (path_step adjacency) ([], 1)).1

/-- Events for the C9 counterexample: Group_2 has two outgoing edges, the
second one strictly stronger (correlation 0.9 > 0.6). -/
def events_C9 : List PropEvent :=
  [⟨"Group_1", "Group_2", 1, 3 / 5⟩,
   ⟨"Group_2", "Group_3", 1, 3 / 5⟩,
   ⟨"Group_2", "Group_4", 1, 9 / 10⟩]

/-- Claim C9, counterexample: on `events_C9` the only reported path is
`Group_1 → Group_2 → Group_3`, following Group_2's FIRST-recorded outgoing
edge (correlation 0.6) even though its edge to Group_4 is strictly stronger
(0.9): the walk does not follow the strongest next-hop edge, so the claimed
path `Group_1 → Group_2 → Group_4` is not produced. -/
theorem C9_counterexample_first_edge_not_strongest :
    (build_propagation_paths events_C9).map (fun p => p.sequence) =
        [["Group_1", "Group_2", "Group_3"]] ∧
      (⟨"Group_2", "Group_4", 1, 9 / 10⟩ : PropEvent) ∈ events_C9 ∧
      (3 / 5 : ℚ) < 9 / 10 ∧
      "Group_4" ∉ (["Group_1", "Group_2", "Group_3"] : List String) := by
  refine ⟨by decide, ?_, by norm_num, by decide⟩
  unfold events_C9
  exact List.mem_cons.2 (Or.inr (List.mem_cons.2 (Or.inr (List.mem_cons_self _ _))))

/-- Specification-level recomputation of the walk: the list of hop EVENTS
followed from `current` (always the head of the current group's outgoing
list, never the strongest edge), stopping at a non-key or already-visited
group. -/
def chain_hops (adj : List (String × List PropEvent)) (fuel : ℕ)
    (visited : List String) (current : String) : List PropEvent :=
  match fuel with
  | 0 => []
  | fuel + 1 =>
    match adj_find adj current with
    | none => []
    | some next_hops =>
      if current ∈ visited then []
      else
        match next_hops with
        | [] => []
        | e :: _ => e :: chain_hops adj fuel (current :: visited) e.target_group

theorem walk_loop_eq_chain (adj : List (String × List PropEvent)) :
    ∀ (fuel : ℕ) (visited : List String) (current : String)
      (path : List String) (d : ℚ) (s : List ℚ),
    walk_loop adj fuel visited current path d s =
      (path ++ (chain_hops adj fuel visited current).map (fun e => e.target_group),
        d + ((chain_hops adj fuel visited current).map (fun e => e.delay_ms)).sum,
        s ++ (chain_hops adj fuel visited current).map (fun e => e.correlation)) := by
  intro fuel
  induction fuel with
  | zero =>
    intro visited current path d s
    simp [walk_loop, chain_hops]
  | succ fuel ih =>
    intro visited current path d s
    unfold walk_loop chain_hops
    cases hfind : adj_find adj current with
    | none => simp
    | some hops =>
      by_cases hv : current ∈ visited
      · simp [hv]
      · simp only [if_neg hv]
        cases hops with
        | nil => simp
        | cons e rest =>
          simp only [ih]
          simp [List.append_assoc, add_assoc]

/-- Number of adjacency keys not yet visited — the walk's loop variant. -/
def unvisited_keys (adj : List (String × List PropEvent))
    (visited : List String) : ℕ :=
  (adj.filter fun p => decide (p.1 ∉ visited)).length

theorem adj_find_mem {adj : List (String × List PropEvent)} {c : String}
    {es : List PropEvent} (h : adj_find adj c = some es) : (c, es) ∈ adj := by
  unfold adj_find at h
  cases hf : adj.find? fun p => decide (p.1 = c) with
  | none => rw [hf] at h; cases h
  | some p =>
    rw [hf] at h
    simp only [Option.map_some', Option.some.injEq] at h
    have hm := List.mem_of_find?_eq_some hf
    have hp0 := List.find?_some hf
    have hp : p.1 = c := of_decide_eq_true (by simpa using hp0)
    have : p = (c, es) := by
      cases p
      simp only [Prod.mk.injEq]
      exact ⟨hp, h⟩
    rwa [this] at hm

theorem length_filter_le_of_imp {X : Type} (l : List X) (p q : X → Bool)
    (h : ∀ x, p x = true → q x = true) :
    (l.filter p).length ≤ (l.filter q).length := by
  induction l with
  | nil => simp
  | cons a l ih =>
    simp only [List.filter_cons]
    cases hp : p a with
    | true =>
      rw [h a hp]
      simpa using ih
    | false =>
      cases hq : q a with
      | true => exact le_trans ih (by simp)
      | false => simpa using ih

theorem unvisited_keys_lt {adj : List (String × List PropEvent)}
    {visited : List String} {c : String} {es : List PropEvent}
    (hmem : (c, es) ∈ adj) (hnv : c ∉ visited) :
    unvisited_keys adj (c :: visited) < unvisited_keys adj visited := by
  unfold unvisited_keys
  have himp : ∀ x : String × List PropEvent,
      decide (x.1 ∉ c :: visited) = true → decide (x.1 ∉ visited) = true := by
    intro x hx
    have := of_decide_eq_true hx
    exact decide_eq_true fun hc => this (List.mem_cons_of_mem _ hc)
  induction adj with
  | nil => cases hmem
  | cons a l ih =>
    simp only [List.filter_cons]
    rcases List.mem_cons.1 hmem with heq | hmeml
    · subst heq
      rw [show decide ((c, es).1 ∉ c :: visited) = false from
          decide_eq_false fun hc => hc (List.mem_cons_self _ _),
        show decide ((c, es).1 ∉ visited) = true from decide_eq_true hnv]
      simp only [List.length_cons]
      exact Nat.lt_succ_of_le (length_filter_le_of_imp l _ _ himp)
    · have hlt := ih hmeml
      cases ha : decide (a.1 ∉ c :: visited) with
      | true =>
        rw [himp a ha]
        simpa using hlt
      | false =>
        cases hb : decide (a.1 ∉ visited) with
        | true => exact lt_trans hlt (by simp)
        | false => simpa using hlt

theorem walk_loop_measure_zero (adj : List (String × List PropEvent))
    (visited : List String) (current : String) (path : List String) (d : ℚ)
    (s : List ℚ) (h : unvisited_keys adj visited = 0) (fuel : ℕ) :
    walk_loop adj fuel visited current path d s = (path, d, s) := by
  cases fuel with
  | zero => rfl
  | succ fuel =>
    unfold walk_loop
    cases hfind : adj_find adj current with
    | none => rfl
    | some hops =>
      by_cases hv : current ∈ visited
      · simp [hv]
      · exfalso
        have hmem : (current, hops) ∈ adj.filter fun p => decide (p.1 ∉ visited) :=
          List.mem_filter.2 ⟨adj_find_mem hfind, decide_eq_true hv⟩
        have := List.length_pos_of_mem hmem
        unfold unvisited_keys at h
        omega

/-- Fuel sufficiency: once the fuel is at least the number of unvisited
adjacency keys (the loop variant), adding more fuel does not change the walk
result — i.e. `walk_loop` with fuel `adj.length` computes the unbounded
`while` loop of the source. -/
theorem walk_loop_fuel_sufficient (adj : List (String × List PropEvent)) :
    ∀ (fuel : ℕ) (visited : List String) (current : String) (path : List String)
      (d : ℚ) (s : List ℚ), unvisited_keys adj visited ≤ fuel →
    walk_loop adj (fuel + 1) visited current path d s =
      walk_loop adj fuel visited current path d s := by
  intro fuel
  induction fuel with
  | zero =>
    intro visited current path d s h
    have h0 : unvisited_keys adj visited = 0 := Nat.le_zero.1 h
    rw [walk_loop_measure_zero adj visited current path d s h0,
      walk_loop_measure_zero adj visited current path d s h0]
  | succ fuel ih =>
    intro visited current path d s h
    conv_lhs => rw [walk_loop]
    conv_rhs => rw [walk_loop]
    cases hfind : adj_find adj current with
    | none => rfl
    | some hops =>
      by_cases hv : current ∈ visited
      · simp [hv]
      · simp only [if_neg hv]
        cases hops with
        | nil => rfl
        | cons e rest =>
          exact ih (current :: visited) e.target_group _ _ _
            (by
              have := unvisited_keys_lt (adj_find_mem hfind) hv
              omega)

/-- Specification of one start group's report: the chain followed from
`start` (sequence = start followed by the hop targets), accepted only when
the sequence has strictly more than 2 entries. -/
def path_report (adj : List (String × List PropEvent)) (start : String) :
    Option (List String × List PropEvent) :=
  if 2 < (start :: (chain_hops adj adj.length [] start).map
      (fun e => e.target_group)).length then
    some (start :: (chain_hops adj adj.length [] start).map
      (fun e => e.target_group), chain_hops adj adj.length [] start)
  else none

/-- Turn a report (sequence, hop events) into the emitted `PropPath`:
total delay is the rounded SUM of the hop delays, strength the rounded MEAN
of the hop correlations. -/
def path_of_report (c : ℕ) (r : List String × List PropEvent) : PropPath :=
  { path_id := "path_" ++ pad3 c
    sequence := r.1
    total_delay_ms := np_round 2 ((r.2.map fun e => e.delay_ms).sum)
    strength := np_round 3 (((r.2.map fun e => e.correlation).sum) /
      ((r.2.map fun e => e.correlation).length))
    path_type := "cascading_congestion" }

/-- Attach sequential `path_{c:03d}` ids to a list of reports. -/
def attach_ids (c : ℕ) (l : List (List String × List PropEvent)) : List PropPath :=
  (l.enumFrom c).map fun p => path_of_report p.1 p.2

/-- Specification-level reformulation of `_build_propagation_paths`:
one report per adjacency key (in dict order), recomputed from the hop chain. -/
def spec_paths (events : List PropEvent) : List PropPath :=
  if events.length < 2 then []
  else
    attach_ids 1 (((build_adjacency events).map Prod.fst).filterMap
      (path_report (build_adjacency events)))

theorem path_step_eq (adj : List (String × List PropEvent))
    (acc : List PropPath × ℕ) (start : String) :
    path_step adj acc start =
      match path_report adj start with
      | some r => (acc.1 ++ [path_of_report acc.2 r], acc.2 + 1)
      | none => acc := by
  unfold path_step path_report
  rw [walk_loop_eq_chain]
  simp only [List.singleton_append, List.nil_append, zero_add]
  by_cases h : 2 < (start :: (chain_hops adj adj.length [] start).map
      (fun e => e.target_group)).length
  · rw [if_pos h, if_pos h]
    rfl
  · rw [if_neg h, if_neg h]

theorem attach_ids_cons (c : ℕ) (r : List String × List PropEvent)
    (l : List (List String × List PropEvent)) :
    attach_ids c (r :: l) = path_of_report c r :: attach_ids (c + 1) l := by
  unfold attach_ids
  rfl

theorem foldl_path_step (adj : List (String × List PropEvent)) :
    ∀ (keys : List String) (acc : List PropPath) (c : ℕ),
    keys.foldl (path_step adj) (acc, c) =
      (acc ++ attach_ids c (keys.filterMap (path_report adj)),
        c + (keys.filterMap (path_report adj)).length) := by
  intro keys
  induction keys with
  | nil =>
    intro acc c
    simp [attach_ids, List.enumFrom]
  | cons start keys ih =>
    intro acc c
    rw [List.foldl_cons, path_step_eq]
    cases hrep : path_report adj start with
    | none =>
      rw [List.filterMap_cons_none hrep]
      exact ih acc c
    | some r =>
      change List.foldl (path_step adj) (acc ++ [path_of_report c r], c + 1) keys = _
      rw [List.filterMap_cons_some hrep, ih (acc ++ [path_of_report c r]) (c + 1),
        attach_ids_cons]
      simp only [Prod.mk.injEq]
      constructor
      · rw [List.append_assoc, List.singleton_append]
      · simp only [List.length_cons]
        omega

theorem snd_mem_of_mem_enumFrom {X : Type} :
    ∀ {l : List X} {n : ℕ} {p : ℕ × X}, p ∈ l.enumFrom n → p.2 ∈ l := by
  intro l
  induction l with
  | nil => intro n p h; cases h
  | cons a l ih =>
    intro n p h
    rcases List.mem_cons.1 h with heq | hmem
    · subst heq
      exact List.mem_cons_self _ _
    · exact List.mem_cons_of_mem _ (ih hmem)

/-- Claim C9, amended: path chaining starts from every group with at least
one outgoing edge (every adjacency key, in dict insertion order); at each hop
it follows the FIRST-recorded outgoing edge of the current group (event scan
order) — not the strongest one; the visited set stops the walk at an
already-expanded group (so only the final entry of a path can revisit an
earlier group); a PropagationPath is reported exactly when the chain has
strictly more than 2 entries, with total delay the rounded sum of hop delays
and strength the rounded mean of hop correlations; fewer than 2 events
produce no paths at all. -/
theorem C9_amended_first_edge_chaining (events : List PropEvent) :
    build_propagation_paths events = spec_paths events ∧
      ∀ p ∈ build_propagation_paths events, 2 < p.sequence.length := by
  have heq : build_propagation_paths events = spec_paths events := by
    unfold build_propagation_paths spec_paths
    by_cases h : events.length < 2
    · rw [if_pos h, if_pos h]
    · rw [if_neg h, if_neg h]
      show (List.foldl (path_step (build_adjacency events)) ([], 1)
        ((build_adjacency events).map Prod.fst)).1 = _
      rw [foldl_path_step]
      simp
  refine ⟨heq, ?_⟩
  intro p hp
  rw [heq] at hp
  unfold spec_paths at hp
  by_cases h : events.length < 2
  · rw [if_pos h] at hp
    cases hp
  · rw [if_neg h] at hp
    unfold attach_ids at hp
    rcases List.mem_map.1 hp with ⟨q, hqmem, hqe⟩
    have hq2 : q.2 ∈ ((build_adjacency events).map Prod.fst).filterMap
        (path_report (build_adjacency events)) := snd_mem_of_mem_enumFrom hqmem
    rcases List.mem_filterMap.1 hq2 with ⟨start, _, hrep⟩
    unfold path_report at hrep
    by_cases hc : 2 < (start :: (chain_hops (build_adjacency events)
        (build_adjacency events).length [] start).map
        (fun e => e.target_group)).length
    · rw [if_pos hc] at hrep
      have hq := Option.some.inj hrep
      rw [← hqe]
      show 2 < (path_of_report q.1 q.2).sequence.length
      have hseq : (path_of_report q.1 q.2).sequence = q.2.1 := rfl
      rw [hseq, ← hq]
      exact hc
    · rw [if_neg hc] at hrep
      cases hrep

/-- Witness for `C9_amended_first_edge_chaining` at the concrete `events_C9`
(whose single reported path has 3 entries). -/
theorem C9_amended_witness :
    build_propagation_paths events_C9 = spec_paths events_C9 ∧
      2 < ((build_propagation_paths events_C9).headD
        ⟨"", [], 0, 0, ""⟩).sequence.length := by
  have hlen : (build_propagation_paths events_C9).length = 1 := by decide
  have hmem : (build_propagation_paths events_C9).headD ⟨"", [], 0, 0, ""⟩ ∈
      build_propagation_paths events_C9 := by
    cases hl : build_propagation_paths events_C9 with
    | nil => rw [hl] at hlen; cases hlen
    | cons a l =>
      simp only [List.headD_cons]
      exact List.mem_cons_self _ _
  exact ⟨(C9_amended_first_edge_chaining events_C9).1,
    (C9_amended_first_edge_chaining events_C9).2 _ hmem⟩

/-! ### `_build_network_graph` from `propagation_service.py`

Nodes are the topology groups; a node's type is looked up in the
`node_types` dict built from the events (`source` / `target` /
`intermediate`, `isolated` when absent); each node's congestion level is
`round(0.5 + np.random.random() * 0.4, 2)` — a fresh uniform [0,1) draw per
node, independent of every input.  The per-node draws are modelled by the
explicit argument `draw`. -/

def dict_find (m : List (String × String)) (k : String) : Option String :=
  (m.find? fun p => decide (p.1 = k)).map Prod.snd

/-- Update the value of an existing key in place (python dict assignment for
a present key keeps its position). -/
def dict_set (m : List (String × String)) (k v : String) :
    List (String × String) :=
  m.map fun p => if p.1 = k then (p.1, v) else p

/-- One iteration of the `for event in events` loop building `node_types`. -/
def node_types_step (m : List (String × String)) (e : PropEvent) :
    List (String × String) :=
  let m1 := if (dict_find m e.source_group).isSome then m
    else m ++ [(e.source_group, "source")]
  if (dict_find m1 e.target_group).isSome = false then
    m1 ++ [(e.target_group, "target")]
  else if dict_find m1 e.target_group = some "source" then
    dict_set m1 e.target_group "intermediate"
  else m1

def build_node_types (events : List PropEvent) : List (String × String) :=
  events.foldl node_types_step []

structure NetNode where
  id : String
  node_type : String
  congestion_level : ℚ
  deriving DecidableEq

structure NetEdge where
  source : String
  target : String
  delay_ms : ℚ
  strength : ℚ
  deriving DecidableEq

structure NetworkGraph where
  nodes : List NetNode
  edges : List NetEdge
  deriving DecidableEq

/-- `_build_network_graph`. -/
def build_network_graph (events : List PropEvent) (groups : List TopologyGroup)
    (draw : ℕ → ℚ) : NetworkGraph :=
  { nodes := groups.enum.map fun p =>
      { id := p.2.group_id
        node_type := (dict_find (build_node_types events) p.2.group_id).getD "isolated"
        congestion_level := np_round 2 (1 / 2 + draw p.1 * (2 / 5)) }
    edges := events.map fun e =>
      { source := e.source_group
        target := e.target_group
        delay_ms := e.delay_ms
        strength := e.correlation } }

theorem np_round_two_half : np_round 2 ((1 : ℚ) / 2) = 1 / 2 := by
  rw [np_round_eq_of_mul_eq 2 _ 50 (by norm_num)]
  norm_num

theorem np_round_two_nine_tenths : np_round 2 ((9 : ℚ) / 10) = 9 / 10 := by
  rw [np_round_eq_of_mul_eq 2 _ 90 (by norm_num)]
  norm_num

/-- Claim C10: every node's `congestion_level` lies in [0.5, 0.9]; it is
computed from a fresh random draw, not from the input signals, groups or
events, so two invocations on identical inputs may return different
congestion levels (second conjunct: two legal draw sequences that give
different network graphs for the same events and groups). -/
theorem C10_congestion_level_random_in_range (events : List PropEvent)
    (groups : List TopologyGroup) (draw : ℕ → ℚ)
    (hdraw : ∀ i, 0 ≤ draw i ∧ draw i < 1) :
    (∀ node ∈ (build_network_graph events groups draw).nodes,
        1 / 2 ≤ node.congestion_level ∧ node.congestion_level ≤ 9 / 10) ∧
      ∃ d1 d2 : ℕ → ℚ, (∀ i, 0 ≤ d1 i ∧ d1 i < 1) ∧ (∀ i, 0 ≤ d2 i ∧ d2 i < 1) ∧
        build_network_graph events (⟨"Group_1", "Link_A", [0], 1, 1⟩ :: groups) d1 ≠
          build_network_graph events (⟨"Group_1", "Link_A", [0], 1, 1⟩ :: groups) d2 := by
  constructor
  · intro node hnode
    rcases List.mem_map.1 hnode with ⟨p, _, hpe⟩
    have hcl : node.congestion_level = np_round 2 (1 / 2 + draw p.1 * (2 / 5)) := by
      rw [← hpe]
    rcases hdraw p.1 with ⟨hd0, hd1⟩
    constructor
    · have h1 : np_round 2 ((1 : ℚ) / 2) ≤ np_round 2 (1 / 2 + draw p.1 * (2 / 5)) :=
        np_round_le_np_round 2 (by nlinarith)
      rw [np_round_two_half] at h1
      rw [hcl]
      exact h1
    · have h2 : np_round 2 ((1 : ℚ) / 2 + draw p.1 * (2 / 5)) ≤ np_round 2 ((9 : ℚ) / 10) :=
        np_round_le_np_round 2 (by nlinarith)
      rw [np_round_two_nine_tenths] at h2
      rw [hcl]
      exact h2
  · refine ⟨fun _ => 0, fun _ => 1 / 2, fun i => ⟨le_refl 0, by norm_num⟩,
      fun i => ⟨by norm_num, by norm_num⟩, fun hc => ?_⟩
    have hnodes := congrArg (fun G => G.nodes) hc
    simp only [build_network_graph, List.enum, List.enumFrom, List.map_cons,
      List.cons.injEq, NetNode.mk.injEq] at hnodes
    have hval := hnodes.1.2.2
    rw [show (1 : ℚ) / 2 + 0 * (2 / 5) = 1 / 2 by norm_num,
      show (1 : ℚ) / 2 + 1 / 2 * (2 / 5) = 7 / 10 by norm_num,
      np_round_two_half,
      np_round_eq_of_mul_eq 2 ((7 : ℚ) / 10) 70 (by norm_num)] at hval
    norm_num at hval

/-- Witness for `C10_congestion_level_random_in_range`: the single node of a
concrete graph with draw 1/2 has congestion level within [0.5, 0.9]. -/
theorem C10_congestion_witness :
    1 / 2 ≤ ((build_network_graph [] [⟨"Group_1", "Link_A", [0], 1, 1⟩]
        (fun _ => 1 / 2)).nodes.headD ⟨"", "", 0⟩).congestion_level ∧
      ((build_network_graph [] [⟨"Group_1", "Link_A", [0], 1, 1⟩]
        (fun _ => 1 / 2)).nodes.headD ⟨"", "", 0⟩).congestion_level ≤ 9 / 10 := by
  have hlen : (build_network_graph [] [⟨"Group_1", "Link_A", [0], 1, 1⟩]
      (fun _ => 1 / 2)).nodes.length = 1 := by decide
  have hmem : (build_network_graph [] [⟨"Group_1", "Link_A", [0], 1, 1⟩]
      (fun _ => 1 / 2)).nodes.headD ⟨"", "", 0⟩ ∈
      (build_network_graph [] [⟨"Group_1", "Link_A", [0], 1, 1⟩]
        (fun _ => 1 / 2)).nodes := by
    cases hl : (build_network_graph [] [⟨"Group_1", "Link_A", [0], 1, 1⟩]
        (fun _ => 1 / 2)).nodes with
    | nil => rw [hl] at hlen; cases hlen
    | cons a l =>
      simp only [List.headD_cons]
      exact List.mem_cons_self _ _
  exact (C10_congestion_level_random_in_range [] [⟨"Group_1", "Link_A", [0], 1, 1⟩]
    (fun _ => 1 / 2) (fun i => ⟨by norm_num, by norm_num⟩)).1 _ hmem
